import Mathlib

/-!
Verification of the `db` key-value store facade (`src/bbolt/bblot.go`) of the
kvass repository.  The facade wraps the bbolt embedded ordered key-value
engine; the engine itself is not part of the repository's sources, so its
behaviour (ordered buckets, cursor seek semantics, nil bucket handles,
read-only transactions rejecting mutations) is modelled from the
specification's engine design (spec §3–§4) and the bbolt library contract the
facade is written against.

Conventions of the embedding:
  * Go `[]byte` values become `List Nat` (each element intended `< 256`).
  * A bucket is its committed list of entries, sorted strictly ascending by
    byte-lexicographic key order; a database maps bucket names to buckets.
  * Each facade operation returns an `Option`: `none` models a Go runtime
    panic (nil bucket dereference or a `binary.BigEndian.Uint64` bounds-check
    failure), `some` the operation's ordinary Go return values.
  * Scan-family operations additionally return the trace of entries the
    visitor callback was invoked on, so that theorems can speak about visit
    order.
-/

namespace Store

/-- Byte strings: Go `[]byte` as a list of byte values. -/
abbrev Bytes := List Nat

/-- One key/value entry of a bucket. -/
abbrev Entry := Bytes × Bytes

/-- A bucket's committed contents: entries sorted ascending by key. -/
abbrev BucketData := List Entry

/-- The whole store: bucket name to bucket contents. -/
abbrev DB := List (Bytes × BucketData)

/-- Go `bytes.Compare`: byte-lexicographic three-way comparison, a shorter
string that is a proper prelude of a longer one compares less. -/
def goCompare : Bytes → Bytes → Ordering
  | [], [] => .eq
  | [], _ :: _ => .lt
  | _ :: _, [] => .gt
  | a :: as, b :: bs =>
    if a < b then .lt else if b < a then .gt else goCompare as bs

/-- Go `bytes.HasPrefix p k`-style test with the arguments in the Go order
`HasPrefix (s, pre)` flipped: `hasPref p k` holds when `k` starts with `p`. -/
def hasPref (p k : Bytes) : Bool := p.isPrefixOf k

/-- Errors the facade can surface: the facade's own `ErrNotfound`, bbolt's
`ErrTxNotWritable` (mutation attempted inside a read-only transaction), and
`io.EOF` which the scan loops return to abort iteration early. -/
inductive StoreErr where
  | notFound
  | txNotWritable
  | eof
deriving DecidableEq, Repr

/-- Go `binary.BigEndian.Uint64`: reads the first 8 bytes big-endian; the Go
function bounds-checks `b[7]` and panics (`none` here) on fewer than 8 bytes. -/
def beUint64? : Bytes → Option Nat
  | b0 :: b1 :: b2 :: b3 :: b4 :: b5 :: b6 :: b7 :: _ =>
    some (((((((b0 * 256 + b1) * 256 + b2) * 256 + b3) * 256 + b4) * 256 +
      b5) * 256 + b6) * 256 + b7)
  | _ => none

/-- Go `binary.BigEndian.PutUint64` into a fresh 8-byte slice: the big-endian
byte decomposition of `n` (callers pass `n < 2^64`). -/
def bePutUint64 (n : Nat) : Bytes :=
  [n / 2 ^ 56 % 256, n / 2 ^ 48 % 256, n / 2 ^ 40 % 256, n / 2 ^ 32 % 256,
   n / 2 ^ 24 % 256, n / 2 ^ 16 % 256, n / 2 ^ 8 % 256, n % 256]

/-- Modelled from the spec (§3, §4.2): `tx.Bucket` looks a bucket handle up by
name, yielding `none` (Go `nil`) when the bucket does not exist. -/
def dbBucket : DB → Bytes → Option BucketData
  | [], _ => none
  | (n, es) :: rest, b => if n = b then some es else dbBucket rest b

/-- Commits new contents for bucket `b` (the write-transaction path). -/
def dbSetBucket : DB → Bytes → BucketData → DB
  | [], b, es => [(b, es)]
  | (n, es0) :: rest, b, es =>
    if n = b then (b, es) :: rest else (n, es0) :: dbSetBucket rest b es

/-- Modelled from the spec (§4.2 `find`): `Bucket.Get`, `none` when absent. -/
def bGet : BucketData → Bytes → Option Bytes
  | [], _ => none
  | (k, v) :: rest, key => if k = key then some v else bGet rest key

/-- Modelled from the spec (§4.2 `insert`): `Bucket.Put` upserts, keeping the
entries sorted ascending by byte-lexicographic key order. -/
def bPut : BucketData → Bytes → Bytes → BucketData
  | [], key, val => [(key, val)]
  | (k, v) :: rest, key, val =>
    match goCompare key k with
    | .lt => (key, val) :: (k, v) :: rest
    | .eq => (key, val) :: rest
    | .gt => (k, v) :: bPut rest key val

/-- Modelled from the spec (§4.4): `Cursor.Seek` positions at the first entry
whose key is `≥` the target; on the sorted entry list that is dropping the
strictly smaller heads. -/
def seekGo (es : BucketData) (target : Bytes) : BucketData :=
  es.dropWhile (fun p => decide (goCompare p.1 target = .lt))

/-- Shared shape of the facade's three visitor loops (`Scan`'s `ForEach` body
and the cursor loops of the two finders): walk the entries while `inRange`
holds of the key, invoke `next` on each, and abort with `io.EOF` as soon as
`next` returns `false`.  Returns the trace of visited entries together with
the error the enclosing `View` call returns (`none` for a nil error). -/
def cursorLoop (l : BucketData) (inRange : Bytes → Bool)
    (next : Bytes → Bytes → Bool) : BucketData × Option StoreErr :=
  match l with
  | [] => ([], none)
  | (k, v) :: rest =>
    if inRange k then
      if next k v then
        let r := cursorLoop rest inRange next
        ((k, v) :: r.1, r.2)
      else ([(k, v)], some .eof)
    else ([], none)

/-- `Store.Save` (src/bbolt/bblot.go lines 68–73): inside a write transaction,
`tx.Bucket(bucket)` then `b.Put(key, val)`.  A missing bucket gives a nil
handle and the `Put` call dereferences it: `none` (panic). -/
def Save (db : DB) (bucket key val : Bytes) : Option DB :=
  match dbBucket db bucket with
  | none => none
  | some es => some (dbSetBucket db bucket (bPut es key val))

/-- `Store.Get` (lines 76–86): inside a read transaction, `b.Get(key)`;
returns `ErrNotfound` when the value is nil.  A missing bucket gives a nil
handle and the `Get` call dereferences it: `none` (panic). -/
def Get (db : DB) (bucket key : Bytes) : Option (Except StoreErr Bytes) :=
  match dbBucket db bucket with
  | none => none
  | some es =>
    match bGet es key with
    | none => some (.error .notFound)
    | some v => some (.ok v)

/-- `Store.Delete` (lines 88–93): calls `b.Delete(key)` inside `db.View`, a
read-only transaction.  Per the engine contract (spec §3: transactions carry a
read-only/writable flag; bbolt: `Bucket.Delete` returns `ErrTxNotWritable`
from a read-only transaction), the mutation is rejected: the store is
unchanged and the error is returned.  A missing bucket still panics (`none`),
since `b.Delete` dereferences the nil handle before the writability check. -/
def Delete (db : DB) (bucket key : Bytes) : Option (Option StoreErr × DB) :=
  match dbBucket db bucket with
  | none => none
  | some _ => some (some .txNotWritable, db)

/-- Reading phase shared by both `Incr` variants: `n := 0`, overwritten with
`binary.BigEndian.Uint64(old)` when `b.Get(key)` is non-nil (which panics on a
stored value shorter than 8 bytes). -/
def incrRead (es : BucketData) (key : Bytes) : Option Nat :=
  match bGet es key with
  | none => some 0
  | some old => beUint64? old

/-- `Store.Incr` (lines 49–65): read the counter (0 when absent); when it is
already `math.MaxUint64` return it unchanged without writing (the `Update`
closure returns nil early); otherwise add one, store the 8-byte big-endian
encoding, and return the new value.  A missing bucket panics (`none`). -/
def Incr (db : DB) (bucket key : Bytes) : Option (Nat × DB) :=
  match dbBucket db bucket with
  | none => none
  | some es =>
    match incrRead es key with
    | none => none
    | some n0 =>
      if n0 = 2 ^ 64 - 1 then some (n0, db)
      else some (n0 + 1, dbSetBucket db bucket (bPut es key (bePutUint64 (n0 + 1))))

/-- The second copy's `Incr` (lines 191–204): same read phase but no
`MaxUint64` check, so `n += 1` is Go `uint64` wrap-around arithmetic. -/
def IncrW (db : DB) (bucket key : Bytes) : Option (Nat × DB) :=
  match dbBucket db bucket with
  | none => none
  | some es =>
    match incrRead es key with
    | none => none
    | some n0 =>
      some ((n0 + 1) % 2 ^ 64,
        dbSetBucket db bucket (bPut es key (bePutUint64 ((n0 + 1) % 2 ^ 64))))

/-- `Store.Scan` (lines 96–106): `b.ForEach` over every entry in ascending key
order, returning `io.EOF` out of the `View` when the visitor returns false.
A missing bucket panics (`none`). -/
def Scan (db : DB) (bucket : Bytes) (next : Bytes → Bytes → Bool) :
    Option (BucketData × Option StoreErr) :=
  match dbBucket db bucket with
  | none => none
  | some es => some (cursorLoop es (fun _ => true) next)

/-- `Store.FindPrefix` (lines 109–119): cursor `Seek(p)` then iterate while
the key still starts with `p`, aborting with `io.EOF` when the visitor returns
false.  A missing bucket panics (`none`). -/
def FindPref (db : DB) (bucket p : Bytes) (next : Bytes → Bytes → Bool) :
    Option (BucketData × Option StoreErr) :=
  match dbBucket db bucket with
  | none => none
  | some es => some (cursorLoop (seekGo es p) (fun k => hasPref p k) next)

/-- `Store.FindBetween` (lines 122–136): swap the bounds when
`bytes.Compare(start, end) > 0`, then cursor `Seek(start)` and iterate while
`bytes.Compare(k, end) <= 0`, aborting with `io.EOF` when the visitor returns
false.  A missing bucket panics (`none`). -/
def FindBetween (db : DB) (bucket start en : Bytes)
    (next : Bytes → Bytes → Bool) : Option (BucketData × Option StoreErr) :=
  match dbBucket db bucket with
  | none => none
  | some es =>
    let se := if goCompare start en = .gt then (en, start) else (start, en)
    some (cursorLoop (seekGo es se.1) (fun k => !decide (goCompare k se.2 = .gt)) next)

/-- Runs a sequence of `Save` calls against one bucket, left to right. -/
def applySaves (db : DB) (bucket : Bytes) : List (Bytes × Bytes) → Option DB
  | [] => some db
  | (k, v) :: rest =>
    match Save db bucket k v with
    | none => none
    | some db2 => applySaves db2 bucket rest

/-- Runs `Incr` (first copy) `n` times sequentially on one key, returning the
last call's counter value together with the final store. -/
def incrN (db : DB) (bucket key : Bytes) : Nat → Option (Nat × DB)
  | 0 => some (0, db)
  | n + 1 =>
    match incrN db bucket key n with
    | none => none
    | some (_, db2) => Incr db2 bucket key

/-- Runs the second copy's `Incr` `n` times sequentially on one key. -/
def incrNW (db : DB) (bucket key : Bytes) : Nat → Option (Nat × DB)
  | 0 => some (0, db)
  | n + 1 =>
    match incrNW db bucket key n with
    | none => none
    | some (_, db2) => IncrW db2 bucket key

/-- Strict ascending byte-lexicographic order on entries by key. -/
def keyLt (a b : Entry) : Prop := goCompare a.1 b.1 = .lt

/-- The bucket invariant (spec §3): keys unique and sorted ascending. -/
def entsSorted (es : BucketData) : Prop := List.Pairwise keyLt es

instance : DecidableRel keyLt := fun a b => by unfold keyLt; infer_instance

instance : DecidablePred (entsSorted ·) := fun es => by
  unfold entsSorted; infer_instance

/-- Clean early-stop behaviour of one scan-family call's result: the call does
not panic, the error it returns is the `io.EOF` sentinel exactly when the
visitor returned `false` on some visited entry, and in that case the visit
trace ends at the first such entry (nothing is visited past it). -/
def stopSpec (next : Bytes → Bytes → Bool)
    (r : Option (BucketData × Option StoreErr)) : Prop :=
  ∃ vis e, r = some (vis, e) ∧
    (e = some .eof ↔ ∃ y ∈ vis, next y.1 y.2 = false) ∧
    (e = some .eof → ∃ pre x, vis = pre ++ [x] ∧
      (∀ y ∈ pre, next y.1 y.2 = true) ∧ next x.1 x.2 = false)

/-- Fixture: a one-entry bucket used to instantiate the general theorems. -/
def wEs : BucketData := [([97], [1])]

/-- Fixture: a store holding bucket `[66]` with contents `wEs`. -/
def wDb : DB := [([66], wEs)]

/-- Fixture: a bucket whose key `[107]` holds the maximal 8-byte counter. -/
def wEsMax : BucketData := [([107], [255, 255, 255, 255, 255, 255, 255, 255])]

/-- Fixture: a store holding bucket `[66]` with contents `wEsMax`. -/
def wDbMax : DB := [([66], wEsMax)]

/-! Order-theoretic facts about `goCompare` (byte-lexicographic order). -/

theorem goCompare_self (a : Bytes) : goCompare a a = .eq := by
  induction a with
  | nil => rfl
  | cons x xs ih => simp [goCompare, ih]

theorem goCompare_eq_iff {a b : Bytes} : goCompare a b = .eq ↔ a = b := by
  induction a generalizing b with
  | nil => cases b <;> simp [goCompare]
  | cons x xs ih =>
    cases b with
    | nil => simp [goCompare]
    | cons y ys =>
      by_cases hxy : x < y
      · simp [goCompare, hxy]
        omega
      · by_cases hyx : y < x
        · simp [goCompare, hxy, hyx]
          omega
        · have hxyeq : x = y := by omega
          simp [goCompare, hxy, hyx, ih, hxyeq]

theorem goCompare_swap (a b : Bytes) : goCompare b a = (goCompare a b).swap := by
  induction a generalizing b with
  | nil => cases b <;> rfl
  | cons x xs ih =>
    cases b with
    | nil => rfl
    | cons y ys =>
      by_cases hxy : x < y
      · have hyx : ¬ y < x := by omega
        simp [goCompare, hxy, hyx, Ordering.swap]
      · by_cases hyx : y < x
        · simp [goCompare, hxy, hyx, Ordering.swap]
        · simp [goCompare, hxy, hyx, ih]

theorem goCompare_lt_iff_gt {a b : Bytes} :
    goCompare a b = .lt ↔ goCompare b a = .gt := by
  rw [goCompare_swap a b]
  rcases h : goCompare a b with _ | _ | _ <;> decide

theorem goCompare_lt_trans {a b c : Bytes} (h1 : goCompare a b = .lt)
    (h2 : goCompare b c = .lt) : goCompare a c = .lt := by
  induction a generalizing b c with
  | nil =>
    cases b with
    | nil => exact absurd h1 (by simp [goCompare])
    | cons y ys => cases c with
      | nil => exact absurd h2 (by simp [goCompare])
      | cons z zs => simp [goCompare]
  | cons x xs ih =>
    cases b with
    | nil => exact absurd h1 (by simp [goCompare])
    | cons y ys =>
      cases c with
      | nil => exact absurd h2 (by simp [goCompare])
      | cons z zs =>
        by_cases hxy : x < y <;> by_cases hyz : y < z
        · have hxz : x < z := by omega
          simp [goCompare, hxz]
        · have hzy : ¬ z < y := by
            intro hc
            simp [goCompare, hyz, hc] at h2
          have hxz : x < z := by omega
          simp [goCompare, hxz]
        · have hyx : ¬ y < x := by
            intro hc
            simp [goCompare, hxy, hc] at h1
          have hxyeq : x = y := by omega
          have hxz : x < z := by omega
          simp [goCompare, hxz]
        · have hyx : ¬ y < x := by
            intro hc
            simp [goCompare, hxy, hc] at h1
          have hzy : ¬ z < y := by
            intro hc
            simp [goCompare, hyz, hc] at h2
          have hxyeq : x = y := by omega
          have hyzeq : y = z := by omega
          simp [goCompare, hxy, hyx] at h1
          simp [goCompare, hyz, hzy] at h2
          have hxz : ¬ x < z := by omega
          have hzx : ¬ z < x := by omega
          simp [goCompare, hxz, hzx]
          exact ih h1 h2

theorem goCompare_ne_gt_iff {a b : Bytes} :
    goCompare a b ≠ .gt ↔ goCompare a b = .lt ∨ a = b := by
  rw [← goCompare_eq_iff]
  rcases h : goCompare a b with _ | _ | _ <;> simp [h]

theorem goCompare_le_trans {a b c : Bytes} (h1 : goCompare a b ≠ .gt)
    (h2 : goCompare b c ≠ .gt) : goCompare a c ≠ .gt := by
  rw [goCompare_ne_gt_iff] at h1 h2 ⊢
  rcases h1 with h1 | rfl
  · rcases h2 with h2 | rfl
    · exact Or.inl (goCompare_lt_trans h1 h2)
    · exact Or.inl h1
  · exact h2

theorem goCompare_lt_of_lt_of_le {a b c : Bytes} (h1 : goCompare a b = .lt)
    (h2 : goCompare b c ≠ .gt) : goCompare a c = .lt := by
  rw [goCompare_ne_gt_iff] at h2
  rcases h2 with h2 | rfl
  · exact goCompare_lt_trans h1 h2
  · exact h1

theorem goCompare_lt_of_le_of_lt {a b c : Bytes} (h1 : goCompare a b ≠ .gt)
    (h2 : goCompare b c = .lt) : goCompare a c = .lt := by
  rw [goCompare_ne_gt_iff] at h1
  rcases h1 with h1 | rfl
  · exact goCompare_lt_trans h1 h2
  · exact h2

theorem goCompare_lt_ne {a b : Bytes} (h : goCompare a b = .lt) : a ≠ b := by
  intro hc
  rw [hc, goCompare_self] at h
  exact Ordering.noConfusion h

/-! Facts about `hasPref`. -/

theorem hasPref_le {p k : Bytes} (h : hasPref p k = true) :
    goCompare p k ≠ .gt := by
  induction p generalizing k with
  | nil => cases k <;> simp [goCompare]
  | cons x xs ih =>
    cases k with
    | nil => simp [hasPref, List.isPrefixOf] at h
    | cons y ys =>
      simp only [hasPref, List.isPrefixOf, Bool.and_eq_true, beq_iff_eq] at h
      obtain ⟨rfl, hrest⟩ := h
      have hlt : ¬ x < x := by omega
      simp [goCompare, hlt]
      exact ih hrest

theorem hasPref_between {p a c : Bytes} (hc : hasPref p c = true)
    (hpa : goCompare p a ≠ .gt) (hac : goCompare a c ≠ .gt) :
    hasPref p a = true := by
  induction p generalizing a c with
  | nil => simp [hasPref, List.isPrefixOf]
  | cons x xs ih =>
    cases a with
    | nil =>
      cases c <;> simp [goCompare] at hpa
    | cons y ys =>
      cases c with
      | nil => simp [hasPref, List.isPrefixOf] at hc
      | cons z zs =>
        simp only [hasPref, List.isPrefixOf, Bool.and_eq_true, beq_iff_eq] at hc ⊢
        obtain ⟨hxz, hzs⟩ := hc
        by_cases hxy : x < y
        · -- then y > z (= x), so a > c, contradicting a ≤ c
          exfalso
          have hzy : z < y := by omega
          have hyz : ¬ y < z := by omega
          exact hac (by simp [goCompare, hyz, hzy])
        · by_cases hyx : y < x
          · exact absurd (by simp [goCompare, hyx, hxy] : goCompare (x :: xs) (y :: ys) = .gt) hpa
          · have hxyeq : x = y := by omega
            subst hxyeq
            have hlt : ¬ x < x := by omega
            refine ⟨rfl, ih hzs ?_ ?_⟩
            · simpa [goCompare, hlt] using hpa
            · have hxzlt : ¬ x < z := by omega
              have hzxlt : ¬ z < x := by omega
              simpa [goCompare, hxzlt, hzxlt] using hac

/-! Facts about the bucket and store primitives. -/

theorem bGet_bPut_same (es : BucketData) (k v : Bytes) :
    bGet (bPut es k v) k = some v := by
  induction es with
  | nil => simp [bPut, bGet]
  | cons e rest ih =>
    obtain ⟨k0, v0⟩ := e
    rcases h : goCompare k k0 with _ | _ | _ <;> simp only [bPut, h]
    · simp [bGet]
    · simp [bGet]
    · have hne : k0 ≠ k := by
        intro hc
        rw [hc, goCompare_self] at h
        exact Ordering.noConfusion h
      simp [bGet, hne, ih]

theorem bGet_bPut_ne (es : BucketData) (k v key : Bytes) (hne : key ≠ k) :
    bGet (bPut es k v) key = bGet es key := by
  have hkey : k ≠ key := Ne.symm hne
  induction es with
  | nil => simp [bPut, bGet, hkey]
  | cons e rest ih =>
    obtain ⟨k0, v0⟩ := e
    rcases h : goCompare k k0 with _ | _ | _ <;> simp only [bPut, h]
    · simp [bGet, hkey]
    · have hkk0 : k = k0 := goCompare_eq_iff.mp h
      subst hkk0
      simp [bGet, hkey]
    · simp only [bGet, ih]

theorem dbBucket_dbSetBucket_same (db : DB) (b : Bytes) (es : BucketData) :
    dbBucket (dbSetBucket db b es) b = some es := by
  induction db with
  | nil => simp [dbSetBucket, dbBucket]
  | cons e rest ih =>
    obtain ⟨n, es0⟩ := e
    by_cases h : n = b <;> simp [dbSetBucket, dbBucket, h, ih]

/-! Facts about the shared visitor loop. -/

theorem cursorLoop_all_true (l : BucketData) (g : Bytes → Bool)
    (next : Bytes → Bytes → Bool)
    (h : ∀ e ∈ l.takeWhile (fun p => g p.1), next e.1 e.2 = true) :
    cursorLoop l g next = (l.takeWhile (fun p => g p.1), none) := by
  induction l with
  | nil => simp [cursorLoop]
  | cons e rest ih =>
    obtain ⟨k, v⟩ := e
    by_cases hg : g k
    · have hmem : (k, v) ∈ List.takeWhile (fun p => g p.1) ((k, v) :: rest) := by
        rw [List.takeWhile_cons]
        simp [hg]
      have hnext : next k v = true := h (k, v) hmem
      have hrest : ∀ e ∈ rest.takeWhile (fun p => g p.1), next e.1 e.2 = true := by
        intro e he
        refine h e ?_
        rw [List.takeWhile_cons]
        simp only [hg, if_true, List.mem_cons]
        exact Or.inr he
      simp [cursorLoop, hg, hnext, ih hrest, List.takeWhile_cons]
    · simp [cursorLoop, hg, List.takeWhile_cons]

theorem cursorLoop_fst_le (l : BucketData) (g : Bytes → Bool)
    (next : Bytes → Bytes → Bool) :
    ∃ t, (cursorLoop l g next).1 ++ t = l.takeWhile (fun p => g p.1) := by
  induction l with
  | nil => exact ⟨[], rfl⟩
  | cons e rest ih =>
    obtain ⟨k, v⟩ := e
    by_cases hg : g k
    · by_cases hn : next k v
      · obtain ⟨t, ht⟩ := ih
        exact ⟨t, by simp [cursorLoop, hg, hn, List.takeWhile_cons, ht]⟩
      · exact ⟨rest.takeWhile (fun p => g p.1), by
          simp [cursorLoop, hg, hn, List.takeWhile_cons]⟩
    · exact ⟨[], by simp [cursorLoop, hg, List.takeWhile_cons]⟩

theorem cursorLoop_snd_cases (l : BucketData) (g : Bytes → Bool)
    (next : Bytes → Bytes → Bool) :
    (cursorLoop l g next).2 = none ∨ (cursorLoop l g next).2 = some .eof := by
  induction l with
  | nil => simp [cursorLoop]
  | cons e rest ih =>
    obtain ⟨k, v⟩ := e
    by_cases hg : g k
    · by_cases hn : next k v <;> simp [cursorLoop, hg, hn, ih]
    · simp [cursorLoop, hg]

theorem cursorLoop_none_eq (l : BucketData) (g : Bytes → Bool)
    (next : Bytes → Bytes → Bool) (h : (cursorLoop l g next).2 = none) :
    (cursorLoop l g next).1 = l.takeWhile (fun p => g p.1) := by
  induction l with
  | nil => simp [cursorLoop]
  | cons e rest ih =>
    obtain ⟨k, v⟩ := e
    by_cases hg : g k
    · by_cases hn : next k v
      · simp only [cursorLoop, hg, if_true, hn] at h ⊢
        simp [List.takeWhile_cons, hg, ih h]
      · simp [cursorLoop, hg, hn] at h
    · simp [cursorLoop, hg, List.takeWhile_cons]

theorem cursorLoop_none_all_true (l : BucketData) (g : Bytes → Bool)
    (next : Bytes → Bytes → Bool) (h : (cursorLoop l g next).2 = none) :
    ∀ y ∈ (cursorLoop l g next).1, next y.1 y.2 = true := by
  induction l with
  | nil => simp [cursorLoop]
  | cons e rest ih =>
    obtain ⟨k, v⟩ := e
    by_cases hg : g k
    · by_cases hn : next k v
      · simp only [cursorLoop, hg, if_true, hn] at h ⊢
        intro y hy
        rcases List.mem_cons.mp hy with rfl | hy
        · exact hn
        · exact ih h y hy
      · simp [cursorLoop, hg, hn] at h
    · simp [cursorLoop, hg]

theorem cursorLoop_eof_shape (l : BucketData) (g : Bytes → Bool)
    (next : Bytes → Bytes → Bool) (h : (cursorLoop l g next).2 = some .eof) :
    ∃ pre x, (cursorLoop l g next).1 = pre ++ [x] ∧
      (∀ y ∈ pre, next y.1 y.2 = true) ∧ next x.1 x.2 = false := by
  induction l with
  | nil => simp [cursorLoop] at h
  | cons e rest ih =>
    obtain ⟨k, v⟩ := e
    by_cases hg : g k
    · by_cases hn : next k v
      · simp only [cursorLoop, hg, if_true, hn] at h ⊢
        obtain ⟨pre, x, h1, h2, h3⟩ := ih h
        refine ⟨(k, v) :: pre, x, by simp [h1], ?_, h3⟩
        intro y hy
        rcases List.mem_cons.mp hy with rfl | hy
        · exact hn
        · exact h2 y hy
      · refine ⟨[], (k, v), ?_, by simp, by simpa using hn⟩
        simp [cursorLoop, hg, hn]
    · simp [cursorLoop, hg] at h

theorem cursorLoop_eof_iff (l : BucketData) (g : Bytes → Bool)
    (next : Bytes → Bytes → Bool) :
    (cursorLoop l g next).2 = some .eof ↔
      ∃ y ∈ (cursorLoop l g next).1, next y.1 y.2 = false := by
  constructor
  · intro h
    obtain ⟨pre, x, h1, _, h3⟩ := cursorLoop_eof_shape l g next h
    exact ⟨x, by simp [h1], h3⟩
  · intro ⟨y, hy, hfalse⟩
    rcases cursorLoop_snd_cases l g next with h | h
    · have := cursorLoop_none_all_true l g next h y hy
      rw [this] at hfalse
      exact Bool.noConfusion hfalse
    · exact h

/-! Sorted lists: `takeWhile`/`dropWhile` against order-compatible predicates
coincide with `filter`, which lets the cursor loops be described by the set of
keys they visit. -/

theorem takeWhile_eq_filter_sorted {α : Type} {R : α → α → Prop} {Q : α → Bool}
    {l : List α} (hs : l.Pairwise R)
    (hQ : ∀ a ∈ l, ∀ b ∈ l, R a b → Q b = true → Q a = true) :
    l.takeWhile Q = l.filter Q := by
  induction l with
  | nil => rfl
  | cons x xs ih =>
    rcases List.pairwise_cons.mp hs with ⟨hx, hxs⟩
    by_cases hq : Q x
    · rw [List.takeWhile_cons, List.filter_cons]
      simp only [hq, if_true]
      rw [ih hxs (fun a ha b hb hr => hQ a (List.mem_cons_of_mem _ ha)
        b (List.mem_cons_of_mem _ hb) hr)]
    · rw [List.takeWhile_cons, List.filter_cons]
      simp only [hq, if_false, Bool.false_eq_true]
      have hall : ∀ y ∈ xs, Q y = false := by
        intro y hy
        by_contra hc
        have : Q y = true := by
          cases hqy : Q y
          · exact absurd hqy hc
          · rfl
        exact hq (hQ x (List.mem_cons_self x xs) y (List.mem_cons_of_mem _ hy)
          (hx y hy) this)
      have : xs.filter Q = [] := List.filter_eq_nil_iff.mpr (by
        intro a ha
        simp [hall a ha])
      simp [this]

theorem dropWhile_eq_filter_sorted {α : Type} {R : α → α → Prop} {P : α → Bool}
    {l : List α} (hs : l.Pairwise R)
    (hP : ∀ a ∈ l, ∀ b ∈ l, R a b → P b = true → P a = true) :
    l.dropWhile P = l.filter (fun a => !P a) := by
  induction l with
  | nil => rfl
  | cons x xs ih =>
    rcases List.pairwise_cons.mp hs with ⟨hx, hxs⟩
    by_cases hp : P x
    · rw [List.dropWhile_cons, List.filter_cons]
      simp only [hp, if_true, Bool.not_true, Bool.false_eq_true, if_false]
      exact ih hxs (fun a ha b hb hr => hP a (List.mem_cons_of_mem _ ha)
        b (List.mem_cons_of_mem _ hb) hr)
    · rw [List.dropWhile_cons, List.filter_cons]
      have hpx : P x = false := by
        cases hq : P x
        · rfl
        · exact absurd hq hp
      simp only [hpx, Bool.false_eq_true, if_false, Bool.not_false, if_true]
      have hall : ∀ y ∈ xs, P y = false := by
        intro y hy
        by_contra hc
        have : P y = true := by
          cases hqy : P y
          · exact absurd hqy hc
          · rfl
        exact hp (hP x (List.mem_cons_self x xs) y (List.mem_cons_of_mem _ hy)
          (hx y hy) this)
      have : xs.filter (fun a => !P a) = xs := List.filter_eq_self.mpr (by
        intro a ha
        simp [hall a ha])
      rw [this]

/-! Big-endian 8-byte encode/decode roundtrip. -/

theorem beUint64_bePutUint64 (n : Nat) (h : n < 2 ^ 64) :
    beUint64? (bePutUint64 n) = some n := by
  simp only [bePutUint64, beUint64?, Option.some_inj]
  omega

theorem bePutUint64_length (n : Nat) : (bePutUint64 n).length = 8 := rfl

/-! Characterizations of the visited entry sets of the scan family. -/

theorem goCompare_ne_lt_flip {a b : Bytes} :
    goCompare a b ≠ .lt ↔ goCompare b a ≠ .gt := by
  rw [goCompare_swap a b]
  rcases h : goCompare a b with _ | _ | _ <;> decide

theorem takeWhile_const_true {α : Type} (l : List α) :
    l.takeWhile (fun _ => true) = l := by
  induction l with
  | nil => rfl
  | cons x xs ih => rw [List.takeWhile_cons]; simp [ih]

theorem seekGo_eq_filter {es : BucketData} {t : Bytes} (hs : entsSorted es) :
    seekGo es t = es.filter (fun p => !decide (goCompare p.1 t = .lt)) := by
  unfold seekGo
  exact dropWhile_eq_filter_sorted hs (fun a _ b _ hr hb => by
    have hb2 : goCompare b.1 t = .lt := by simpa using hb
    simpa using goCompare_lt_trans hr hb2)

theorem seekGo_sorted {es : BucketData} {t : Bytes} (hs : entsSorted es) :
    entsSorted (seekGo es t) := by
  rw [seekGo_eq_filter hs]
  exact List.Pairwise.sublist (List.filter_sublist es) hs

/-- With an always-true visitor, `FindPref`'s cursor loop visits exactly the
entries whose key starts with `p`. -/
theorem findPref_visited {es : BucketData} {p : Bytes} (hs : entsSorted es) :
    (seekGo es p).takeWhile (fun q => hasPref p q.1) =
      es.filter (fun q => hasPref p q.1) := by
  have h1 : (seekGo es p).takeWhile (fun q => hasPref p q.1) =
      (seekGo es p).filter (fun q => hasPref p q.1) := by
    refine takeWhile_eq_filter_sorted (seekGo_sorted hs) ?_
    intro a ha b _ hr hb
    rw [seekGo_eq_filter hs] at ha
    have hpa : goCompare a.1 p ≠ .lt := by
      rcases List.mem_filter.mp ha with ⟨_, hfa⟩
      simpa [beq_eq_false_iff_ne] using hfa
    exact hasPref_between hb (goCompare_ne_lt_flip.mp hpa)
      (by rw [hr]; intro hc; exact Ordering.noConfusion hc)
  rw [h1, seekGo_eq_filter hs, List.filter_filter]
  refine List.filter_congr ?_
  intro q _
  cases hq : hasPref p q.1
  · simp [hq]
  · have h2 : goCompare q.1 p ≠ .lt := goCompare_ne_lt_flip.mpr (hasPref_le hq)
    simp [hq, h2]

/-- With an always-true visitor, `FindBetween`'s cursor loop (after the bound
swap) visits exactly the entries with `start ≤ key ≤ en`. -/
theorem findBetween_visited {es : BucketData} {s en : Bytes} (hs : entsSorted es) :
    (seekGo es s).takeWhile (fun q => !decide (goCompare q.1 en = .gt)) =
      es.filter (fun q => !decide (goCompare q.1 s = .lt) &&
        !decide (goCompare q.1 en = .gt)) := by
  have h1 : (seekGo es s).takeWhile (fun q => !decide (goCompare q.1 en = .gt)) =
      (seekGo es s).filter (fun q => !decide (goCompare q.1 en = .gt)) := by
    refine takeWhile_eq_filter_sorted (seekGo_sorted hs) ?_
    intro a _ b _ hr hb
    have hb2 : goCompare b.1 en ≠ .gt := by
      simpa [beq_eq_false_iff_ne] using hb
    have hab : goCompare a.1 b.1 ≠ .gt := by
      rw [hr]
      intro hc
      exact Ordering.noConfusion hc
    simpa [beq_eq_false_iff_ne] using goCompare_le_trans hab hb2
  rw [h1, seekGo_eq_filter hs, List.filter_filter]
  refine List.filter_congr ?_
  intro q _
  exact Bool.and_comm _ _

theorem FindBetween_comm (db : DB) (bkt s en : Bytes)
    (next : Bytes → Bytes → Bool) :
    FindBetween db bkt s en next = FindBetween db bkt en s next := by
  unfold FindBetween
  rcases h : goCompare s en with _ | _ | _
  · have h2 : goCompare en s = .gt := goCompare_lt_iff_gt.mp h
    rw [h2]
    simp
  · have hse : s = en := goCompare_eq_iff.mp h
    subst hse
    rw [goCompare_self]
  · have h2 : goCompare en s = .lt := goCompare_lt_iff_gt.mpr h
    rw [h2]
    simp

/-! Sequences of `Save` calls and of `Incr` calls. -/

theorem applySaves_preserves (bkt k : Bytes) (ops : List (Bytes × Bytes)) :
    ∀ (db : DB) (es : BucketData), dbBucket db bkt = some es →
      (∀ p ∈ ops, p.1 ≠ k) →
      ∃ db2 es2, applySaves db bkt ops = some db2 ∧
        dbBucket db2 bkt = some es2 ∧ bGet es2 k = bGet es k := by
  induction ops with
  | nil =>
    intro db es hb _
    exact ⟨db, es, rfl, hb, rfl⟩
  | cons p rest ih =>
    obtain ⟨k1, v1⟩ := p
    intro db es hb hno
    have hk1 : k1 ≠ k := hno (k1, v1) (List.mem_cons_self _ _)
    have hsave : Save db bkt k1 v1 = some (dbSetBucket db bkt (bPut es k1 v1)) := by
      simp [Save, hb]
    have hb2 : dbBucket (dbSetBucket db bkt (bPut es k1 v1)) bkt =
        some (bPut es k1 v1) := dbBucket_dbSetBucket_same _ _ _
    obtain ⟨db2, es2, h1, h2, h3⟩ :=
      ih _ _ hb2 (fun q hq => hno q (List.mem_cons_of_mem _ hq))
    refine ⟨db2, es2, ?_, h2, ?_⟩
    · simp [applySaves, hsave, h1]
    · rw [h3, bGet_bPut_ne _ _ _ _ (Ne.symm hk1)]

theorem incrN_stored (bkt key : Bytes) :
    ∀ (N : Nat), 1 ≤ N → N ≤ 2 ^ 64 - 1 →
    ∀ (db : DB) (es : BucketData), dbBucket db bkt = some es →
      bGet es key = none →
      ∃ db2 es2, incrN db bkt key N = some (N, db2) ∧
        dbBucket db2 bkt = some es2 ∧ bGet es2 key = some (bePutUint64 N) := by
  intro N
  induction N with
  | zero => omega
  | succ n ihn =>
    intro _ hN db es hb hfresh
    rcases Nat.eq_zero_or_pos n with rfl | hpos
    · have h1 : Incr db bkt key =
          some (1, dbSetBucket db bkt (bPut es key (bePutUint64 1))) := by
        have h0 : ¬ (0 : Nat) = 2 ^ 64 - 1 := by norm_num
        simp [Incr, hb, incrRead, hfresh, h0]
      refine ⟨dbSetBucket db bkt (bPut es key (bePutUint64 1)),
        bPut es key (bePutUint64 1), ?_,
        dbBucket_dbSetBucket_same _ _ _, bGet_bPut_same _ _ _⟩
      simp only [incrN, h1]
    · obtain ⟨db2, es2, h1, h2, h3⟩ := ihn hpos (by omega) db es hb hfresh
      have hn64 : n < 2 ^ 64 := by omega
      have hnmax : ¬ n = 2 ^ 64 - 1 := by omega
      have hnmax2 : ¬ n = 18446744073709551615 := by omega
      have hstep : Incr db2 bkt key =
          some (n + 1, dbSetBucket db2 bkt (bPut es2 key (bePutUint64 (n + 1)))) := by
        simp [Incr, h2, incrRead, h3, beUint64_bePutUint64 n hn64, hnmax, hnmax2]
      refine ⟨dbSetBucket db2 bkt (bPut es2 key (bePutUint64 (n + 1))),
        bPut es2 key (bePutUint64 (n + 1)), ?_,
        dbBucket_dbSetBucket_same _ _ _, bGet_bPut_same _ _ _⟩
      simp only [incrN, h1, hstep]

theorem incrNW_stored (bkt key : Bytes) :
    ∀ (N : Nat), 1 ≤ N → N ≤ 2 ^ 64 - 1 →
    ∀ (db : DB) (es : BucketData), dbBucket db bkt = some es →
      bGet es key = none →
      ∃ db2 es2, incrNW db bkt key N = some (N, db2) ∧
        dbBucket db2 bkt = some es2 ∧ bGet es2 key = some (bePutUint64 N) := by
  intro N
  induction N with
  | zero => omega
  | succ n ihn =>
    intro _ hN db es hb hfresh
    have hmod : (n + 1) % 2 ^ 64 = n + 1 := Nat.mod_eq_of_lt (by omega)
    rcases Nat.eq_zero_or_pos n with rfl | hpos
    · have h1 : IncrW db bkt key = some ((0 + 1) % 2 ^ 64,
          dbSetBucket db bkt (bPut es key (bePutUint64 ((0 + 1) % 2 ^ 64)))) := by
        simp only [IncrW, hb, incrRead, hfresh]
      rw [hmod] at h1
      refine ⟨dbSetBucket db bkt (bPut es key (bePutUint64 1)),
        bPut es key (bePutUint64 1), ?_,
        dbBucket_dbSetBucket_same _ _ _, bGet_bPut_same _ _ _⟩
      simp only [incrNW, h1]
    · obtain ⟨db2, es2, h1, h2, h3⟩ := ihn hpos (by omega) db es hb hfresh
      have hn64 : n < 2 ^ 64 := by omega
      have hstep : IncrW db2 bkt key = some ((n + 1) % 2 ^ 64,
          dbSetBucket db2 bkt (bPut es2 key (bePutUint64 ((n + 1) % 2 ^ 64)))) := by
        simp only [IncrW, h2, incrRead, h3, beUint64_bePutUint64 n hn64]
      rw [hmod] at hstep
      refine ⟨dbSetBucket db2 bkt (bPut es2 key (bePutUint64 (n + 1))),
        bPut es2 key (bePutUint64 (n + 1)), ?_,
        dbBucket_dbSetBucket_same _ _ _, bGet_bPut_same _ _ _⟩
      simp only [incrNW, h1, hstep]

theorem stopSpec_cursorLoop (l : BucketData) (g : Bytes → Bool)
    (next : Bytes → Bytes → Bool) : stopSpec next (some (cursorLoop l g next)) :=
  ⟨(cursorLoop l g next).1, (cursorLoop l g next).2, rfl,
    cursorLoop_eof_iff l g next, cursorLoop_eof_shape l g next⟩

/-! The claims. -/

/-- C1: within an existing bucket, for any sequence of `Save` calls on
pairwise-distinct keys, `Get` afterwards returns exactly the value passed to
the (unique, hence most recent) `Save` of that key. -/
theorem claim_C1 (bkt k v : Bytes) (ops : List (Bytes × Bytes)) :
    ∀ (db : DB) (es : BucketData), dbBucket db bkt = some es →
      ops.Pairwise (fun a b => a.1 ≠ b.1) → (k, v) ∈ ops →
      ∃ db2, applySaves db bkt ops = some db2 ∧
        Get db2 bkt k = some (Except.ok v) := by
  induction ops with
  | nil =>
    intro db es hb hnd hmem
    cases hmem
  | cons q rest ih =>
    obtain ⟨k1, v1⟩ := q
    intro db es hb hnd hmem
    have hsave : Save db bkt k1 v1 = some (dbSetBucket db bkt (bPut es k1 v1)) := by
      simp [Save, hb]
    have hb2 : dbBucket (dbSetBucket db bkt (bPut es k1 v1)) bkt =
        some (bPut es k1 v1) := dbBucket_dbSetBucket_same _ _ _
    rcases List.pairwise_cons.mp hnd with ⟨hhead, htail⟩
    rcases List.mem_cons.mp hmem with heq | hmem2
    · injection heq with hk hv
      subst hk
      subst hv
      obtain ⟨db2, es2, h1, h2, h3⟩ := applySaves_preserves bkt k rest _ _ hb2
        (fun q2 hq2 => Ne.symm (hhead q2 hq2))
      refine ⟨db2, ?_, ?_⟩
      · simp [applySaves, hsave, h1]
      · have hget : bGet es2 k = some v := by rw [h3, bGet_bPut_same]
        simp [Get, h2, hget]
    · obtain ⟨db2, h1, h2⟩ := ih _ _ hb2 htail hmem2
      refine ⟨db2, ?_, h2⟩
      simp [applySaves, hsave, h1]

/-- C1 witness: two saves on distinct keys into an existing empty bucket;
`Get` returns the value saved under the first key. -/
theorem claim_C1_witness :
    ∃ db2, applySaves [([66], [])] [66] [([97], [1]), ([98], [2])] = some db2 ∧
      Get db2 [66] [97] = some (Except.ok [1]) :=
  claim_C1 [66] [97] [1] [([97], [1]), ([98], [2])] [([66], [])] [] rfl
    (by simp) (by simp)

/-- C2 (amended): for an existing bucket, `Get` returns the ordinary
`ErrNotfound` error value exactly when the key is absent (never saved, or
removed), and never panics; when the bucket itself is absent, `Get` panics
instead of returning `NotFound` (see the counterexample). -/
theorem claim_C2 (db : DB) (bkt key : Bytes) (es : BucketData)
    (hb : dbBucket db bkt = some es) :
    (Get db bkt key = some (Except.error StoreErr.notFound) ↔
      bGet es key = none) ∧ Get db bkt key ≠ none := by
  refine ⟨⟨?_, ?_⟩, ?_⟩
  · intro h
    rcases hk : bGet es key with _ | v
    · rfl
    · simp [Get, hb, hk] at h
  · intro h
    simp [Get, hb, h]
  · intro h
    rcases hk : bGet es key with _ | v <;> simp [Get, hb, hk] at h

/-- C2 counterexample: with no bucket named `[98]`, `Get` dereferences the nil
bucket handle and panics (`none`); it does not return the `NotFound` error the
claim promises for an absent bucket. -/
theorem claim_C2_cex :
    Get ([] : DB) [98] [107] = none ∧
      (none : Option (Except StoreErr Bytes)) ≠
        some (Except.error StoreErr.notFound) :=
  ⟨rfl, fun h => Option.noConfusion h⟩

/-- C2 witness: in the existing bucket `[66]`, key `[99]` was never saved and
`Get` reports `ErrNotfound` as an ordinary error value. -/
theorem claim_C2_witness :
    (Get wDb [66] [99] = some (Except.error StoreErr.notFound) ↔
      bGet wEs [99] = none) ∧ Get wDb [66] [99] ≠ none :=
  claim_C2 wDb [66] [99] wEs rfl

/-- C3: evaluation at the failing input.  `Delete` issues `Bucket.Delete`
inside a read-only `View` transaction, so on the store holding `[107] ↦ [118]`
in bucket `[98]` the engine rejects the mutation: `Delete` returns the
`ErrTxNotWritable` error (not nil), the store is unchanged, and a subsequent
`Get` still finds the key instead of `NotFound`. -/
theorem claim_C3 :
    Delete [([98], [([107], [118])])] [98] [107] =
      some (some StoreErr.txNotWritable, [([98], [([107], [118])])]) ∧
    Get [([98], [([107], [118])])] [98] [107] = some (Except.ok [118]) ∧
    some StoreErr.txNotWritable ≠ (none : Option StoreErr) :=
  ⟨rfl, rfl, fun h => Option.noConfusion h⟩

/-- C10: every facade operation except `CreateBucketIfNotExist` (both `Incr`
copies, `Save`, `Get`, `Delete`, `Scan`, `FindPrefix`, `FindBetween`) panics
on a bucket name that was never created — `tx.Bucket` yields a nil handle that
the subsequent method call dereferences — instead of reaching any error
branch. -/
theorem claim_C10 (db : DB) (bkt key val s en p : Bytes)
    (next : Bytes → Bytes → Bool) (hb : dbBucket db bkt = none) :
    Incr db bkt key = none ∧ IncrW db bkt key = none ∧
    Save db bkt key val = none ∧ Get db bkt key = none ∧
    Delete db bkt key = none ∧ Scan db bkt next = none ∧
    FindPref db bkt p next = none ∧ FindBetween db bkt s en next = none := by
  refine ⟨?_, ?_, ?_, ?_, ?_, ?_, ?_, ?_⟩ <;>
    simp [Incr, IncrW, Save, Get, Delete, Scan, FindPref, FindBetween, hb]

/-- C10 witness: on the empty store (no bucket `[66]`), all seven operations
panic. -/
theorem claim_C10_witness :
    Incr [] [66] [1] = none ∧ IncrW [] [66] [1] = none ∧
    Save [] [66] [1] [2] = none ∧ Get [] [66] [1] = none ∧
    Delete [] [66] [1] = none ∧ Scan [] [66] (fun _ _ => true) = none ∧
    FindPref [] [66] [3] (fun _ _ => true) = none ∧
    FindBetween [] [66] [4] [5] (fun _ _ => true) = none :=
  claim_C10 [] [66] [1] [2] [4] [5] [3] (fun _ _ => true) rfl

/-- C4: on a fresh (absent) key of an existing bucket, the first `Incr` call
returns 1 and the N-th sequential call returns N (for N up to the 8-byte
maximum), the counter being persisted as the 8-byte big-endian encoding of N
after each call; this holds for both copies of `Incr` in the repository. -/
theorem claim_C4 (db : DB) (bkt key : Bytes) (es : BucketData) (N : Nat)
    (hb : dbBucket db bkt = some es) (hfresh : bGet es key = none)
    (h1 : 1 ≤ N) (hN : N ≤ 2 ^ 64 - 1) :
    (∃ db2 es2, incrN db bkt key N = some (N, db2) ∧
      dbBucket db2 bkt = some es2 ∧ bGet es2 key = some (bePutUint64 N) ∧
      (bePutUint64 N).length = 8) ∧
    (∃ db2 es2, incrNW db bkt key N = some (N, db2) ∧
      dbBucket db2 bkt = some es2 ∧ bGet es2 key = some (bePutUint64 N) ∧
      (bePutUint64 N).length = 8) := by
  constructor
  · obtain ⟨db2, es2, hh1, hh2, hh3⟩ := incrN_stored bkt key N h1 hN db es hb hfresh
    exact ⟨db2, es2, hh1, hh2, hh3, rfl⟩
  · obtain ⟨db2, es2, hh1, hh2, hh3⟩ := incrNW_stored bkt key N h1 hN db es hb hfresh
    exact ⟨db2, es2, hh1, hh2, hh3, rfl⟩

/-- C4 witness: two sequential `Incr` calls on a fresh key of an existing
empty bucket return 2 on the second call, in both `Incr` copies. -/
theorem claim_C4_witness :
    (∃ db2 es2, incrN [([66], [])] [66] [107] 2 = some (2, db2) ∧
      dbBucket db2 [66] = some es2 ∧ bGet es2 [107] = some (bePutUint64 2) ∧
      (bePutUint64 2).length = 8) ∧
    (∃ db2 es2, incrNW [([66], [])] [66] [107] 2 = some (2, db2) ∧
      dbBucket db2 [66] = some es2 ∧ bGet es2 [107] = some (bePutUint64 2) ∧
      (bePutUint64 2).length = 8) :=
  claim_C4 [([66], [])] [66] [107] [] 2 rfl rfl (by norm_num) (by norm_num)

/-- C5: when the stored counter already equals 0xFFFFFFFFFFFFFFFF, the first
copy of `Incr` (lines 49–65) saturates — it returns the maximum and leaves the
store untouched — while the second copy (lines 191–204) has no maximum check
and wraps: it returns 0 and overwrites the stored counter with the 8-byte
encoding of 0, contradicting the claim for that copy. -/
theorem claim_C5 (db : DB) (bkt key : Bytes) (es : BucketData) (old : Bytes)
    (hb : dbBucket db bkt = some es) (hk : bGet es key = some old)
    (hmax : beUint64? old = some (2 ^ 64 - 1)) :
    Incr db bkt key = some (2 ^ 64 - 1, db) ∧
    IncrW db bkt key =
      some (0, dbSetBucket db bkt (bPut es key (bePutUint64 0))) := by
  constructor
  · simp [Incr, incrRead, hb, hk, hmax]
  · have hmod : (2 ^ 64 - 1 + 1) % 2 ^ 64 = 0 := by norm_num
    simp only [IncrW, incrRead, hb, hk, hmax, hmod]

/-- C5 witness: with the stored value primed to eight 0xFF bytes, the first
`Incr` copy reads back the maximum unchanged and the second wraps to 0. -/
theorem claim_C5_witness :
    Incr wDbMax [66] [107] = some (2 ^ 64 - 1, wDbMax) ∧
    IncrW wDbMax [66] [107] =
      some (0, dbSetBucket wDbMax [66]
        (bPut wEsMax [107] (bePutUint64 0))) :=
  claim_C5 wDbMax [66] [107] wEsMax [255, 255, 255, 255, 255, 255, 255, 255]
    rfl rfl (by decide)

/-- C6: for an existing, sorted bucket, `Scan` invokes the visitor on an
initial run of the bucket's entries — each entry at most once, in strictly
ascending key order — visits every entry when the visitor never returns
false, and stops immediately at the first entry on which the visitor returns
false. -/
theorem claim_C6 (db : DB) (bkt : Bytes) (es : BucketData)
    (next : Bytes → Bytes → Bool) (hb : dbBucket db bkt = some es)
    (hs : entsSorted es) :
    ∃ vis e, Scan db bkt next = some (vis, e) ∧
      (∃ t, vis ++ t = es) ∧
      List.Pairwise keyLt vis ∧
      (e = none → vis = es) ∧
      ((∀ x ∈ es, next x.1 x.2 = true) → e = none ∧ vis = es) ∧
      (e = some .eof → ∃ pre x, vis = pre ++ [x] ∧
        (∀ y ∈ pre, next y.1 y.2 = true) ∧ next x.1 x.2 = false) := by
  have hscan : Scan db bkt next = some (cursorLoop es (fun _ => true) next) := by
    simp [Scan, hb]
  have htw : es.takeWhile (fun p => (fun _ => true) p.1) = es := by
    simp
  obtain ⟨t, ht⟩ := cursorLoop_fst_le es (fun _ => true) next
  rw [htw] at ht
  refine ⟨(cursorLoop es (fun _ => true) next).1,
    (cursorLoop es (fun _ => true) next).2, by rw [hscan], ⟨t, ht⟩, ?_, ?_, ?_,
    cursorLoop_eof_shape es (fun _ => true) next⟩
  · have hsub : List.Sublist (cursorLoop es (fun _ => true) next).1 es := by
      have h := List.sublist_append_left (cursorLoop es (fun _ => true) next).1 t
      rwa [ht] at h
    exact List.Pairwise.sublist hsub hs
  · intro he
    have := cursorLoop_none_eq es (fun _ => true) next he
    rwa [htw] at this
  · intro hall
    have hloop : cursorLoop es (fun _ => true) next = (es, none) := by
      have := cursorLoop_all_true es (fun _ => true) next
        (fun e he => hall e (by rwa [htw] at he))
      rwa [htw] at this
    rw [hloop]
    exact ⟨rfl, rfl⟩

/-- C6 witness: scanning the one-entry bucket with an always-true visitor. -/
theorem claim_C6_witness :
    ∃ vis e, Scan wDb [66] (fun _ _ => true) = some (vis, e) ∧
      (∃ t, vis ++ t = wEs) ∧
      List.Pairwise keyLt vis ∧
      (e = none → vis = wEs) ∧
      ((∀ x ∈ wEs, (fun _ _ => true) x.1 x.2 = true) → e = none ∧ vis = wEs) ∧
      (e = some .eof → ∃ pre x, vis = pre ++ [x] ∧
        (∀ y ∈ pre, (fun _ _ => true) y.1 y.2 = true) ∧
        (fun _ _ => true) x.1 x.2 = false) :=
  claim_C6 wDb [66] wEs (fun _ _ => true) rfl (by decide)

/-- C7 (amended): on an existing bucket, each of `Scan`, `FindPrefix` and
`FindBetween` handles a visitor that requests early termination by ending the
scan cleanly at that entry, but returns the sentinel `io.EOF` error to the
caller rather than a nil error. -/
theorem claim_C7 (db : DB) (bkt p s en : Bytes) (es : BucketData)
    (next : Bytes → Bytes → Bool) (hb : dbBucket db bkt = some es) :
    stopSpec next (Scan db bkt next) ∧
    stopSpec next (FindPref db bkt p next) ∧
    stopSpec next (FindBetween db bkt s en next) := by
  refine ⟨?_, ?_, ?_⟩
  · simp only [Scan, hb]
    exact stopSpec_cursorLoop _ _ _
  · simp only [FindPref, hb]
    exact stopSpec_cursorLoop _ _ _
  · simp only [FindBetween, hb]
    exact stopSpec_cursorLoop _ _ _

/-- C7 counterexample: a visitor that immediately requests early termination
makes `Scan` return the (non-nil) `io.EOF` error to its caller, not the nil
error the claim promises. -/
theorem claim_C7_cex :
    Scan wDb [66] (fun _ _ => false) = some ([([97], [1])], some StoreErr.eof) ∧
      some StoreErr.eof ≠ (none : Option StoreErr) :=
  ⟨rfl, fun h => Option.noConfusion h⟩

/-- C7 witness: the amended early-stop behaviour instantiated on the one-entry
bucket with an always-false visitor. -/
theorem claim_C7_witness :
    stopSpec (fun _ _ => false) (Scan wDb [66] (fun _ _ => false)) ∧
    stopSpec (fun _ _ => false) (FindPref wDb [66] [97] (fun _ _ => false)) ∧
    stopSpec (fun _ _ => false)
      (FindBetween wDb [66] [97] [98] (fun _ _ => false)) :=
  claim_C7 wDb [66] [97] [97] [98] wEs (fun _ _ => false) rfl

/-- C8: `FindBetween` is symmetric in its two bounds (they are swapped when
given in reverse order), and with an always-true visitor on an existing,
sorted bucket it visits exactly the entries whose key lies in the inclusive
range `start ≤ key ≤ en`. -/
theorem claim_C8 (db : DB) (bkt s en : Bytes) (es : BucketData)
    (next : Bytes → Bytes → Bool) (hb : dbBucket db bkt = some es)
    (hs : entsSorted es) :
    FindBetween db bkt s en next = FindBetween db bkt en s next ∧
    (goCompare s en ≠ .gt →
      FindBetween db bkt s en (fun _ _ => true) =
        some (es.filter (fun q => !decide (goCompare q.1 s = .lt) &&
          !decide (goCompare q.1 en = .gt)), none)) := by
  refine ⟨FindBetween_comm db bkt s en next, ?_⟩
  intro hle
  have hif : (if goCompare s en = .gt then (en, s) else (s, en)) = (s, en) :=
    if_neg hle
  simp only [FindBetween, hb, hif]
  have hloop := cursorLoop_all_true (seekGo es s)
    (fun k => !decide (goCompare k en = .gt)) (fun _ _ => true)
    (fun e _ => rfl)
  rw [hloop]
  have hvis := @findBetween_visited es s en hs
  simp only [Option.some_inj, Prod.mk.injEq]
  exact ⟨by simpa using hvis, trivial⟩

/-- C8 witness: reversed bounds on the one-entry bucket agree with the sorted
bounds, and the in-order visit set is the inclusive range filter. -/
theorem claim_C8_witness :
    (FindBetween wDb [66] [97] [98] (fun _ _ => true) =
      FindBetween wDb [66] [98] [97] (fun _ _ => true)) ∧
    (goCompare [97] [98] ≠ .gt →
      FindBetween wDb [66] [97] [98] (fun _ _ => true) =
        some (wEs.filter (fun q => !decide (goCompare q.1 [97] = .lt) &&
          !decide (goCompare q.1 [98] = .gt)), none)) :=
  claim_C8 wDb [66] [97] [98] wEs (fun _ _ => true) rfl (by decide)

/-- C9: on an existing, sorted bucket, `FindPrefix` with an always-true
visitor visits exactly the entries whose key starts with the given byte
string, in ascending byte-lexicographic key order (the visited list is the
filter of the sorted bucket, hence sorted). -/
theorem claim_C9 (db : DB) (bkt p : Bytes) (es : BucketData)
    (hb : dbBucket db bkt = some es) (hs : entsSorted es) :
    FindPref db bkt p (fun _ _ => true) =
      some (es.filter (fun q => hasPref p q.1), none) ∧
    List.Pairwise keyLt (es.filter (fun q => hasPref p q.1)) := by
  constructor
  · simp only [FindPref, hb]
    have hloop := cursorLoop_all_true (seekGo es p)
      (fun k => hasPref p k) (fun _ _ => true) (fun e _ => rfl)
    rw [hloop]
    have hvis := @findPref_visited es p hs
    simp only [Option.some_inj, Prod.mk.injEq]
    exact ⟨by simpa using hvis, trivial⟩
  · exact List.Pairwise.sublist (List.filter_sublist es) hs

/-- C9 witness: prefix scan on the one-entry bucket with prefix `[97]`. -/
theorem claim_C9_witness :
    FindPref wDb [66] [97] (fun _ _ => true) =
      some (wEs.filter (fun q => hasPref [97] q.1), none) ∧
    List.Pairwise keyLt (wEs.filter (fun q => hasPref [97] q.1)) :=
  claim_C9 wDb [66] [97] wEs rfl (by decide)

end Store
